import Mathlib

/-!
# Verification of the `mapcomp` comprehension macros (src/lib.rs)

The crate provides six comprehension macros — `vecc!`, `iterc!`, `hashsetc!`,
`hashmapc!`, `btreesetc!`, `btreemapc!` — each expanding a clause list of
nested `for`/`if` clauses into nested loops that push/insert/yield one element
per selected binding.

Shallow embedding: a clause list is the inductive `Clauses ρ` over an
environment type `ρ`; a `for $item in $iter` clause is a function
`ρ → List ρ` producing, for the current environment, the list of environments
obtained by binding the pattern to each element of the iterable (in iteration
order); an `if $cond` guard is a `ρ → Bool`.  The four macro-by-example rules
of each macro (terminal `for`+`if`, terminal `for`, `for`+`if`+tail,
`for`+tail) become the four constructors / match arms.  `for` loops become
`List.foldl` over the iterable, mirroring the imperative accumulator.

Standard containers are modelled extensionally:
* `Vec` with `push` — a `List` with append-at-end;
* `HashSet`/`HashMap` — lists (of elements / key-value pairs) with
  insert-if-absent / overwrite-value-if-present, the observable semantics of
  `HashSet::insert` and `HashMap::insert`;
* `BTreeSet`/`BTreeMap` — lists kept sorted ascending (by element / by key)
  with ordered insert, keeping the old entry on an equal element and replacing
  the value on an equal key, the observable semantics of `BTreeSet::insert`
  and `BTreeMap::insert`; iterating the container is reading the list;
* a Rust generator — its list of pending yields plus a completion flag;
  `resume` on a completed generator is the error case (Rust panics with
  "generator resumed after completion").
-/

/-- A clause list of nested `for`/`if` clauses, as matched by the four
macro-by-example rules shared by all six macros: terminal `for … ; if …`,
terminal `for …`, `for … ; if … ; tail`, and `for … ; tail`. -/
inductive Clauses (ρ : Type) : Type where
  | forIf (iter : ρ → List ρ) (cond : ρ → Bool) : Clauses ρ
  | forOnly (iter : ρ → List ρ) : Clauses ρ
  | forIfSeq (iter : ρ → List ρ) (cond : ρ → Bool) (tail : Clauses ρ) : Clauses ρ
  | forSeq (iter : ρ → List ρ) (tail : Clauses ρ) : Clauses ρ

/-- Reference semantics of a clause list (from the spec's words): the
traversal-ordered list of environments selected by the nested loop/filter
traversal — nested flat-map over the iterables with filters for the guards. -/
def refSelected {ρ : Type} : Clauses ρ → ρ → List ρ
  | .forIf iter cond, env => (iter env).filter cond
  | .forOnly iter, env => iter env
  | .forIfSeq iter cond tail, env =>
      ((iter env).filter cond).flatMap (refSelected tail)
  | .forSeq iter tail, env => (iter env).flatMap (refSelected tail)

/-- The recursive `@__` rules of `vecc!` (src/lib.rs lines 187–213): nested
`for` loops over the iterables, pushing `$exp` onto the accumulator vector
once per selected binding.  `push` is append-at-end. -/
def veccAux {ρ α : Type} (exp : ρ → α) : Clauses ρ → ρ → List α → List α
  | .forIf iter cond, env, acc =>
      (iter env).foldl (fun a e => if cond e then a ++ [exp e] else a) acc
  | .forOnly iter, env, acc =>
      (iter env).foldl (fun a e => a ++ [exp e]) acc
  | .forIfSeq iter cond tail, env, acc =>
      (iter env).foldl (fun a e => if cond e then veccAux exp tail e a else a) acc
  | .forSeq iter tail, env, acc =>
      (iter env).foldl (fun a e => veccAux exp tail e a) acc

/-- The entry rule of `vecc!` (src/lib.rs lines 215–219): start from an empty
`Vec`, run the nested loops, return the accumulator. -/
def vecc {ρ α : Type} (exp : ρ → α) (c : Clauses ρ) (env : ρ) : List α :=
  veccAux exp c env []

/-- Generic accumulator-passing expansion shared (syntactically) by the five
eager macros: `op` is the single insertion call performed per selected
binding. -/
def compAux {ρ β : Type} (op : β → ρ → β) : Clauses ρ → ρ → β → β
  | .forIf iter cond, env, acc =>
      (iter env).foldl (fun a e => if cond e then op a e else a) acc
  | .forOnly iter, env, acc =>
      (iter env).foldl (fun a e => op a e) acc
  | .forIfSeq iter cond tail, env, acc =>
      (iter env).foldl (fun a e => if cond e then compAux op tail e a else a) acc
  | .forSeq iter tail, env, acc =>
      (iter env).foldl (fun a e => compAux op tail e a) acc

/-- The recursive `@__` rules of `iterc!` (src/lib.rs lines 123–149): the
yield trace of the nested loops.  A `for` loop's trace is the concatenation,
in iteration order, of its body's traces; a guarded body yields either its
single element or nothing. -/
def itercYields {ρ α : Type} (exp : ρ → α) : Clauses ρ → ρ → List α
  | .forIf iter cond, env =>
      (iter env).flatMap (fun e => if cond e then [exp e] else [])
  | .forOnly iter, env => (iter env).flatMap (fun e => [exp e])
  | .forIfSeq iter cond tail, env =>
      (iter env).flatMap (fun e => if cond e then itercYields exp tail e else [])
  | .forSeq iter tail, env => (iter env).flatMap (fun e => itercYields exp tail e)

/-- A Rust generator with a finite yield trace: its pending yields, plus
whether it has already returned `Complete` (afterwards `resume` panics). -/
structure FiniteGen (α : Type) : Type where
  pending : List α
  finished : Bool

/-- `GeneratorState` of `::std::ops::Generator::resume`. -/
inductive GeneratorState (α : Type) : Type where
  | yielded (y : α) : GeneratorState α
  | complete : GeneratorState α

/-- `Generator::resume` (std semantics): yield the next pending element, or
return `Complete` once; resuming after completion panics (modelled as the
error case, with Rust's panic message). -/
def FiniteGen.resume {α : Type} :
    FiniteGen α → Except String (GeneratorState α × FiniteGen α)
  | ⟨y :: rest, false⟩ => .ok (.yielded y, ⟨rest, false⟩)
  | ⟨[], false⟩ => .ok (.complete, ⟨[], true⟩)
  | ⟨_, true⟩ => .error "generator resumed after completion"

/-- The `GeneratorIterator` wrapper (src/lib.rs lines 56–58). -/
structure GeneratorIterator (α : Type) : Type where
  generator : FiniteGen α

/-- `GeneratorIterator::new` (src/lib.rs lines 61–63). -/
def GeneratorIterator.new {α : Type} (g : FiniteGen α) : GeneratorIterator α := ⟨g⟩

/-- `GeneratorIterator::next` (src/lib.rs lines 69–75): resume the generator,
map `Yielded(y)` to `Some(y)` and anything else to `None`; a panic of
`resume` propagates. -/
def GeneratorIterator.next {α : Type} (it : GeneratorIterator α) :
    Except String (Option α × GeneratorIterator α) :=
  match it.generator.resume with
  | .ok (.yielded y, g) => .ok (some y, ⟨g⟩)
  | .ok (.complete, g) => .ok (none, ⟨g⟩)
  | .error e => .error e

/-- The entry rule of `iterc!` (src/lib.rs lines 151–156): wrap the generator
whose yield trace is the clause expansion in a `GeneratorIterator`. -/
def iterc {ρ α : Type} (exp : ρ → α) (c : Clauses ρ) (env : ρ) : GeneratorIterator α :=
  GeneratorIterator.new ⟨itercYields exp c env, false⟩

/-- Call `next()` up to `fuel` times, collecting the yielded elements until
the first `None` (or a panic). -/
def collectNexts {α : Type} : Nat → GeneratorIterator α → List α
  | 0, _ => []
  | fuel + 1, it =>
      match it.next with
      | .ok (some y, it') => y :: collectNexts fuel it'
      | _ => []

/-- Call `next()` `n` times, discarding the yielded values but propagating a
panic of the underlying generator. -/
def nextSkip {α : Type} : Nat → GeneratorIterator α → Except String (GeneratorIterator α)
  | 0, it => .ok it
  | n + 1, it =>
      match it.next with
      | .ok (_, it') => nextSkip n it'
      | .error e => .error e

/-- Insert an always-true filter guard (`if true`) after every unguarded
`for` clause of a clause list (C7's transformation). -/
def addTrueGuards {ρ : Type} : Clauses ρ → Clauses ρ
  | .forIf iter cond => .forIf iter cond
  | .forOnly iter => .forIf iter (fun _ => true)
  | .forIfSeq iter cond tail => .forIfSeq iter cond (addTrueGuards tail)
  | .forSeq iter tail => .forIfSeq iter (fun _ => true) (addTrueGuards tail)

/-- `HashSet::insert` (std semantics, observable content): add the element if
not already present. -/
def hsInsert {α : Type} [DecidableEq α] (s : List α) (x : α) : List α :=
  if x ∈ s then s else s ++ [x]

/-- The recursive `@__` rules of `hashsetc!` (src/lib.rs lines 253–279):
nested loops inserting `$exp` into the accumulator set. -/
def hashsetcAux {ρ α : Type} [DecidableEq α] (exp : ρ → α) :
    Clauses ρ → ρ → List α → List α
  | .forIf iter cond, env, acc =>
      (iter env).foldl (fun a e => if cond e then hsInsert a (exp e) else a) acc
  | .forOnly iter, env, acc =>
      (iter env).foldl (fun a e => hsInsert a (exp e)) acc
  | .forIfSeq iter cond tail, env, acc =>
      (iter env).foldl (fun a e => if cond e then hashsetcAux exp tail e a else a) acc
  | .forSeq iter tail, env, acc =>
      (iter env).foldl (fun a e => hashsetcAux exp tail e a) acc

/-- The entry rule of `hashsetc!` (src/lib.rs lines 281–285): start from an
empty `HashSet`, run the nested loops, return the accumulator. -/
def hashsetc {ρ α : Type} [DecidableEq α] (exp : ρ → α) (c : Clauses ρ) (env : ρ) :
    List α :=
  hashsetcAux exp c env []

/-- `BTreeSet::insert` (std semantics): ordered insert into the ascending
element list, keeping the set unchanged when the element is present. -/
def bsInsert {α : Type} [LinearOrder α] : List α → α → List α
  | [], x => [x]
  | y :: t, x =>
      if x < y then x :: y :: t
      else if x = y then y :: t
      else y :: bsInsert t x

/-- The recursive `@__` rules of `btreesetc!` (src/lib.rs lines 377–403). -/
def btreesetcAux {ρ α : Type} [LinearOrder α] (exp : ρ → α) :
    Clauses ρ → ρ → List α → List α
  | .forIf iter cond, env, acc =>
      (iter env).foldl (fun a e => if cond e then bsInsert a (exp e) else a) acc
  | .forOnly iter, env, acc =>
      (iter env).foldl (fun a e => bsInsert a (exp e)) acc
  | .forIfSeq iter cond tail, env, acc =>
      (iter env).foldl (fun a e => if cond e then btreesetcAux exp tail e a else a) acc
  | .forSeq iter tail, env, acc =>
      (iter env).foldl (fun a e => btreesetcAux exp tail e a) acc

/-- The entry rule of `btreesetc!` (src/lib.rs lines 405–409): start from an
empty `BTreeSet`, run the nested loops, return the accumulator. -/
def btreesetc {ρ α : Type} [LinearOrder α] (exp : ρ → α) (c : Clauses ρ) (env : ρ) :
    List α :=
  btreesetcAux exp c env []

/-- Map lookup (the observable semantics of `HashMap::get`/`BTreeMap::get`):
the value of the first entry with the given key. -/
def mapGet {κ ν : Type} [DecidableEq κ] : List (κ × ν) → κ → Option ν
  | [], _ => none
  | p :: t, k => if p.1 = k then some p.2 else mapGet t k

/-- Last-write-wins lookup over a traversal-ordered key-value sequence (the
spec side of C4): the value of the latest pair with the given key. -/
def lookupLast {κ ν : Type} [DecidableEq κ] (kvs : List (κ × ν)) (k : κ) : Option ν :=
  mapGet kvs.reverse k

/-- `HashMap::insert` (std semantics, observable content): overwrite the value
of an existing entry with the same key, else add a new entry. -/
def hmInsert {κ ν : Type} [DecidableEq κ] (m : List (κ × ν)) (k : κ) (v : ν) :
    List (κ × ν) :=
  if k ∈ m.map Prod.fst then m.map (fun p => if p.1 = k then (p.1, v) else p)
  else m ++ [(k, v)]

/-- The recursive `@__` rules of `hashmapc!` (src/lib.rs lines 320–346):
nested loops inserting `$key => $val` into the accumulator map. -/
def hashmapcAux {ρ κ ν : Type} [DecidableEq κ] (key : ρ → κ) (val : ρ → ν) :
    Clauses ρ → ρ → List (κ × ν) → List (κ × ν)
  | .forIf iter cond, env, acc =>
      (iter env).foldl (fun a e => if cond e then hmInsert a (key e) (val e) else a) acc
  | .forOnly iter, env, acc =>
      (iter env).foldl (fun a e => hmInsert a (key e) (val e)) acc
  | .forIfSeq iter cond tail, env, acc =>
      (iter env).foldl (fun a e => if cond e then hashmapcAux key val tail e a else a) acc
  | .forSeq iter tail, env, acc =>
      (iter env).foldl (fun a e => hashmapcAux key val tail e a) acc

/-- The entry rule of `hashmapc!` (src/lib.rs lines 348–352): start from an
empty `HashMap`, run the nested loops, return the accumulator. -/
def hashmapc {ρ κ ν : Type} [DecidableEq κ] (key : ρ → κ) (val : ρ → ν)
    (c : Clauses ρ) (env : ρ) : List (κ × ν) :=
  hashmapcAux key val c env []

/-- `BTreeMap::insert` (std semantics): ordered insert into the
ascending-by-key entry list, replacing the value on an equal key. -/
def bmInsert {κ ν : Type} [LinearOrder κ] : List (κ × ν) → κ → ν → List (κ × ν)
  | [], k, v => [(k, v)]
  | p :: t, k, v =>
      if k < p.1 then (k, v) :: p :: t
      else if k = p.1 then (k, v) :: t
      else p :: bmInsert t k v

/-- The recursive `@__` rules of `btreemapc!` (src/lib.rs lines 433–459). -/
def btreemapcAux {ρ κ ν : Type} [LinearOrder κ] (key : ρ → κ) (val : ρ → ν) :
    Clauses ρ → ρ → List (κ × ν) → List (κ × ν)
  | .forIf iter cond, env, acc =>
      (iter env).foldl (fun a e => if cond e then bmInsert a (key e) (val e) else a) acc
  | .forOnly iter, env, acc =>
      (iter env).foldl (fun a e => bmInsert a (key e) (val e)) acc
  | .forIfSeq iter cond tail, env, acc =>
      (iter env).foldl (fun a e => if cond e then btreemapcAux key val tail e a else a) acc
  | .forSeq iter tail, env, acc =>
      (iter env).foldl (fun a e => btreemapcAux key val tail e a) acc

/-- The entry rule of `btreemapc!` (src/lib.rs lines 461–465): start from an
empty `BTreeMap`, run the nested loops, return the accumulator. -/
def btreemapc {ρ κ ν : Type} [LinearOrder κ] (key : ρ → κ) (val : ρ → ν)
    (c : Clauses ρ) (env : ρ) : List (κ × ν) :=
  btreemapcAux key val c env []

/-- Resume the `iterc!` generator whose outermost clause is
`for x in s` over an unbounded stream `s`, with remaining clauses `c`: scan
the stream from position `k` for the next stream element whose inner
expansion yields anything, within `fuel` stream elements.  Returns the first
yielded element, the remaining buffered yields of that stream element, and
the next stream position. -/
def genResume {ρ α : Type} (s : Nat → ρ) (exp : ρ → α) (c : Clauses ρ) :
    Nat → Nat → Option (α × List α × Nat)
  | 0, _ => none
  | fuel + 1, k =>
      match itercYields exp c (s k) with
      | y :: rest => some (y, rest, k + 1)
      | [] => genResume s exp c fuel (k + 1)

/-- One `next()` call on the lazy `iterc!` iterator over an unbounded stream:
serve a buffered yield of the current stream element if any, else resume the
generator, scanning at most `fuel` further stream elements. -/
def genNext {ρ α : Type} (s : Nat → ρ) (exp : ρ → α) (c : Clauses ρ) (fuel : Nat) :
    List α × Nat → Option (α × List α × Nat)
  | (y :: buf, k) => some (y, buf, k)
  | ([], k) => genResume s exp c fuel k

/-- `n` successive `next()` calls on the lazy `iterc!` iterator over an
unbounded stream, collecting the returned elements; `none` if any call fails
to produce an element within its scanning budget. -/
def genRun {ρ α : Type} (s : Nat → ρ) (exp : ρ → α) (c : Clauses ρ) (fuel : Nat) :
    Nat → List α × Nat → Option (List α)
  | 0, _ => some []
  | n + 1, st =>
      match genNext s exp c fuel st with
      | none => none
      | some (y, buf, k) => (genRun s exp c fuel n (buf, k)).map (y :: ·)

/-- The yield trace contributed by stream elements `s k, …, s (k + m - 1)`. -/
def tailYields {ρ α : Type} (s : Nat → ρ) (exp : ρ → α) (c : Clauses ρ) :
    Nat → Nat → List α
  | _, 0 => []
  | k, m + 1 => itercYields exp c (s k) ++ tailYields s exp c (k + 1) m

/-- Reference (spec side of C6): the traversal-ordered elements selected from
the first `bound` elements of the unbounded source. -/
def infSelected {ρ α : Type} (s : Nat → ρ) (exp : ρ → α) (c : Clauses ρ)
    (bound : Nat) : List α :=
  ((List.range bound).map s).flatMap (itercYields exp c)

/-- Extensional equality of clause lists: same shape, with pointwise-equal
iterables and guards (C10's notion of "equal input sequences and the same
filter expressions"). -/
inductive ClausesEquiv {ρ : Type} : Clauses ρ → Clauses ρ → Prop where
  | forIf {i₁ i₂ : ρ → List ρ} {c₁ c₂ : ρ → Bool} :
      (∀ e, i₁ e = i₂ e) → (∀ e, c₁ e = c₂ e) →
      ClausesEquiv (.forIf i₁ c₁) (.forIf i₂ c₂)
  | forOnly {i₁ i₂ : ρ → List ρ} :
      (∀ e, i₁ e = i₂ e) → ClausesEquiv (.forOnly i₁) (.forOnly i₂)
  | forIfSeq {i₁ i₂ : ρ → List ρ} {c₁ c₂ : ρ → Bool} {t₁ t₂ : Clauses ρ} :
      (∀ e, i₁ e = i₂ e) → (∀ e, c₁ e = c₂ e) → ClausesEquiv t₁ t₂ →
      ClausesEquiv (.forIfSeq i₁ c₁ t₁) (.forIfSeq i₂ c₂ t₂)
  | forSeq {i₁ i₂ : ρ → List ρ} {t₁ t₂ : Clauses ρ} :
      (∀ e, i₁ e = i₂ e) → ClausesEquiv t₁ t₂ →
      ClausesEquiv (.forSeq i₁ t₁) (.forSeq i₂ t₂)

theorem veccAux_eq_compAux {ρ α : Type} (exp : ρ → α) (c : Clauses ρ) :
    ∀ env acc, veccAux exp c env acc = compAux (fun a e => a ++ [exp e]) c env acc := by
  induction c with
  | forIf iter cond => intro env acc; rfl
  | forOnly iter => intro env acc; rfl
  | forIfSeq iter cond tail ih =>
      intro env acc
      simp only [veccAux, compAux]
      congr 1
      funext a e
      rw [ih]
  | forSeq iter tail ih =>
      intro env acc
      simp only [veccAux, compAux]
      congr 1
      funext a e
      rw [ih]

theorem foldl_guard_eq_foldl_filter {ρ β : Type} (op : β → ρ → β) (cond : ρ → Bool) :
    ∀ (l : List ρ) (acc : β),
      l.foldl (fun a e => if cond e then op a e else a) acc = (l.filter cond).foldl op acc := by
  intro l
  induction l with
  | nil => intro acc; rfl
  | cons x xs ih =>
      intro acc
      by_cases h : cond x
      · simp [List.filter_cons, h, ih]
      · simp [List.filter_cons, h, ih]

theorem foldl_flatMap_eq {ρ σ β : Type} (g : ρ → List σ) (op : β → σ → β) :
    ∀ (l : List ρ) (acc : β),
      (l.flatMap g).foldl op acc = l.foldl (fun a e => (g e).foldl op a) acc := by
  intro l
  induction l with
  | nil => intro acc; rfl
  | cons x xs ih =>
      intro acc
      simp [List.flatMap_cons, List.foldl_append, ih]

/-- The generic expansion equals a left fold of the insertion call over the
traversal-ordered selected bindings. -/
theorem compAux_eq_foldl_refSelected {ρ β : Type} (op : β → ρ → β) (c : Clauses ρ) :
    ∀ env acc, compAux op c env acc = (refSelected c env).foldl op acc := by
  induction c with
  | forIf iter cond =>
      intro env acc
      simp only [compAux, refSelected]
      exact foldl_guard_eq_foldl_filter op cond (iter env) acc
  | forOnly iter => intro env acc; rfl
  | forIfSeq iter cond tail ih =>
      intro env acc
      simp only [compAux, refSelected]
      rw [foldl_flatMap_eq, ← foldl_guard_eq_foldl_filter]
      congr 1
      funext a e
      by_cases h : cond e <;> simp [h, ih]
  | forSeq iter tail ih =>
      intro env acc
      simp only [compAux, refSelected]
      rw [foldl_flatMap_eq]
      congr 1
      funext a e
      rw [ih]

theorem foldl_push_eq_append_map {ρ α : Type} (exp : ρ → α) :
    ∀ (l : List ρ) (acc : List α),
      l.foldl (fun a e => a ++ [exp e]) acc = acc ++ l.map exp := by
  intro l
  induction l with
  | nil => intro acc; simp
  | cons x xs ih => intro acc; simp [ih]

theorem veccAux_eq {ρ α : Type} (exp : ρ → α) (c : Clauses ρ) (env : ρ) (acc : List α) :
    veccAux exp c env acc = acc ++ (refSelected c env).map exp := by
  rw [veccAux_eq_compAux, compAux_eq_foldl_refSelected, foldl_push_eq_append_map]

theorem vecc_eq_map {ρ α : Type} (exp : ρ → α) (c : Clauses ρ) (env : ρ) :
    vecc exp c env = (refSelected c env).map exp := by
  rw [vecc, veccAux_eq, List.nil_append]

/-- C1: `vecc!` returns exactly the traversal-ordered selected elements: the
result equals the reference nested flat-map-with-filters over the inputs,
mapped through the body expression (one pushed element per selected binding). -/
theorem vecc_eq_refSelected_map {ρ α : Type} (exp : ρ → α) (c : Clauses ρ) (env : ρ) :
    vecc exp c env = (refSelected c env).map exp :=
  vecc_eq_map exp c env

theorem collectNexts_of_le {α : Type} :
    ∀ (fuel : Nat) (ys : List α), ys.length ≤ fuel →
      collectNexts fuel (GeneratorIterator.new ⟨ys, false⟩) = ys := by
  intro fuel
  induction fuel with
  | zero =>
      intro ys h
      rw [Nat.le_zero, List.length_eq_zero] at h
      subst h
      rfl
  | succ n ih =>
      intro ys h
      cases ys with
      | nil => rfl
      | cons y rest =>
          simp only [collectNexts, GeneratorIterator.next, GeneratorIterator.new,
            FiniteGen.resume]
          have hr : rest.length ≤ n := Nat.succ_le_succ_iff.mp (by simpa using h)
          exact congrArg (y :: ·) (ih rest hr)

theorem flatMap_guard_eq_filter_flatMap {ρ α : Type} (cond : ρ → Bool) (f : ρ → List α) :
    ∀ l : List ρ,
      (l.flatMap fun e => if cond e then f e else []) = (l.filter cond).flatMap f := by
  intro l
  induction l with
  | nil => rfl
  | cons x xs ih =>
      by_cases h : cond x <;> simp [List.filter_cons, h, ih]

theorem flatMap_single_eq_map {ρ α : Type} (f : ρ → α) :
    ∀ l : List ρ, (l.flatMap fun e => [f e]) = l.map f := by
  intro l
  induction l with
  | nil => rfl
  | cons x xs ih => simp [ih]

theorem map_flatMap_eq {ρ σ α : Type} (g : ρ → List σ) (f : σ → α) :
    ∀ l : List ρ, (l.flatMap g).map f = l.flatMap fun e => (g e).map f := by
  intro l
  induction l with
  | nil => rfl
  | cons x xs ih => simp [ih]

theorem itercYields_eq_refSelected_map {ρ α : Type} (exp : ρ → α) (c : Clauses ρ) :
    ∀ env, itercYields exp c env = (refSelected c env).map exp := by
  induction c with
  | forIf iter cond =>
      intro env
      rw [itercYields, refSelected, flatMap_guard_eq_filter_flatMap,
        flatMap_single_eq_map]
  | forOnly iter =>
      intro env
      rw [itercYields, refSelected, flatMap_single_eq_map]
  | forIfSeq iter cond tail ihTail =>
      intro env
      rw [itercYields, refSelected, map_flatMap_eq]
      simp only [ihTail]
      rw [flatMap_guard_eq_filter_flatMap]
  | forSeq iter tail ihTail =>
      intro env
      rw [itercYields, refSelected, map_flatMap_eq]
      simp only [ihTail]

/-- C2: the sequence of elements yielded by the `iterc!` iterator (successive
`next()` calls until `None`) equals the vector built by `vecc!` from the same
expression and clause list. -/
theorem iterc_eq_vecc {ρ α : Type} (exp : ρ → α) (c : Clauses ρ) (env : ρ)
    (fuel : Nat) (h : (itercYields exp c env).length ≤ fuel) :
    collectNexts fuel (iterc exp c env) = vecc exp c env := by
  rw [iterc, collectNexts_of_le fuel _ h, itercYields_eq_refSelected_map,
    vecc_eq_map]

/-- Witness for C2 at a concrete comprehension (even squares of `[3,2,6,9,5]`,
the crate's doc example). -/
theorem iterc_eq_vecc_witness :
    (itercYields (fun x => x * x)
        (Clauses.forIf (fun _ => [3, 2, 6, 9, 5]) (fun x => x % 2 == 0)) 0).length ≤ 5 ∧
      collectNexts 5 (iterc (fun x => x * x)
          (Clauses.forIf (fun _ => [3, 2, 6, 9, 5]) (fun x => x % 2 == 0)) 0) =
        vecc (fun x => x * x)
          (Clauses.forIf (fun _ => [3, 2, 6, 9, 5]) (fun x => x % 2 == 0)) 0 :=
  ⟨by decide,
    iterc_eq_vecc (fun x => x * x)
      (Clauses.forIf (fun _ => [3, 2, 6, 9, 5]) (fun x => x % 2 == 0)) 0 5 (by decide)⟩

theorem refSelected_addTrueGuards {ρ : Type} (c : Clauses ρ) :
    ∀ env, refSelected (addTrueGuards c) env = refSelected c env := by
  induction c with
  | forIf iter cond => intro env; rfl
  | forOnly iter =>
      intro env
      show (iter env).filter (fun _ => true) = iter env
      exact List.filter_true (iter env)
  | forIfSeq iter cond tail ih =>
      intro env
      show ((iter env).filter cond).flatMap (refSelected (addTrueGuards tail)) =
        ((iter env).filter cond).flatMap (refSelected tail)
      rw [funext ih]
  | forSeq iter tail ih =>
      intro env
      show ((iter env).filter (fun _ => true)).flatMap (refSelected (addTrueGuards tail)) =
        (iter env).flatMap (refSelected tail)
      rw [funext ih, List.filter_true]

/-- C7: for the eager `vecc!`, inserting an always-true `if true` guard after
each unguarded `for` clause yields the same result as the clause list without
the guards: an omitted filter is equivalent to an always-satisfied filter. -/
theorem vecc_addTrueGuards {ρ α : Type} (exp : ρ → α) (c : Clauses ρ) (env : ρ) :
    vecc exp (addTrueGuards c) env = vecc exp c env := by
  rw [vecc_eq_map, vecc_eq_map, refSelected_addTrueGuards]

theorem nextSkip_drain {α : Type} :
    ∀ ys : List α,
      nextSkip ys.length (GeneratorIterator.new ⟨ys, false⟩) =
        .ok (GeneratorIterator.new ⟨[], false⟩) := by
  intro ys
  induction ys with
  | nil => rfl
  | cons y rest ih =>
      show nextSkip (rest.length + 1) (GeneratorIterator.new ⟨y :: rest, false⟩) =
        .ok (GeneratorIterator.new ⟨[], false⟩)
      simp only [nextSkip, GeneratorIterator.next, GeneratorIterator.new, FiniteGen.resume]
      exact ih

/-- C8: the iterator returned by `iterc!` is not fused.  Draining all yielded
elements leaves a live generator; the next `next()` call returns `None`,
marking the generator completed; and one more `next()` call resumes the
completed generator, which panics ("generator resumed after completion"). -/
theorem iterc_not_fused {ρ α : Type} (exp : ρ → α) (c : Clauses ρ) (env : ρ) :
    nextSkip (itercYields exp c env).length (iterc exp c env) =
        .ok (GeneratorIterator.new ⟨[], false⟩) ∧
      GeneratorIterator.next (GeneratorIterator.new (⟨[], false⟩ : FiniteGen α)) =
        .ok (none, GeneratorIterator.new ⟨[], true⟩) ∧
      GeneratorIterator.next (GeneratorIterator.new (⟨[], true⟩ : FiniteGen α)) =
        .error "generator resumed after completion" :=
  ⟨nextSkip_drain (itercYields exp c env), rfl, rfl⟩

theorem hashsetcAux_eq_compAux {ρ α : Type} [DecidableEq α] (exp : ρ → α) (c : Clauses ρ) :
    ∀ env acc,
      hashsetcAux exp c env acc = compAux (fun a e => hsInsert a (exp e)) c env acc := by
  induction c with
  | forIf iter cond => intro env acc; rfl
  | forOnly iter => intro env acc; rfl
  | forIfSeq iter cond tail ih =>
      intro env acc
      simp only [hashsetcAux, compAux]
      congr 1
      funext a e
      rw [ih]
  | forSeq iter tail ih =>
      intro env acc
      simp only [hashsetcAux, compAux]
      congr 1
      funext a e
      rw [ih]

theorem hashsetc_eq_foldl {ρ α : Type} [DecidableEq α] (exp : ρ → α) (c : Clauses ρ)
    (env : ρ) :
    hashsetc exp c env = (refSelected c env).foldl (fun a e => hsInsert a (exp e)) [] := by
  rw [hashsetc, hashsetcAux_eq_compAux, compAux_eq_foldl_refSelected]

theorem btreesetcAux_eq_compAux {ρ α : Type} [LinearOrder α] (exp : ρ → α) (c : Clauses ρ) :
    ∀ env acc,
      btreesetcAux exp c env acc = compAux (fun a e => bsInsert a (exp e)) c env acc := by
  induction c with
  | forIf iter cond => intro env acc; rfl
  | forOnly iter => intro env acc; rfl
  | forIfSeq iter cond tail ih =>
      intro env acc
      simp only [btreesetcAux, compAux]
      congr 1
      funext a e
      rw [ih]
  | forSeq iter tail ih =>
      intro env acc
      simp only [btreesetcAux, compAux]
      congr 1
      funext a e
      rw [ih]

theorem btreesetc_eq_foldl {ρ α : Type} [LinearOrder α] (exp : ρ → α) (c : Clauses ρ)
    (env : ρ) :
    btreesetc exp c env = (refSelected c env).foldl (fun a e => bsInsert a (exp e)) [] := by
  rw [btreesetc, btreesetcAux_eq_compAux, compAux_eq_foldl_refSelected]

theorem mem_hsInsert {α : Type} [DecidableEq α] (s : List α) (y x : α) :
    x ∈ hsInsert s y ↔ x = y ∨ x ∈ s := by
  by_cases h : y ∈ s
  · simp only [hsInsert, if_pos h]
    exact ⟨Or.inr, fun hx => hx.elim (fun hxy => hxy ▸ h) id⟩
  · simp [hsInsert, if_neg h, or_comm]

theorem mem_bsInsert {α : Type} [LinearOrder α] (x a : α) :
    ∀ l : List α, a ∈ bsInsert l x ↔ a = x ∨ a ∈ l := by
  intro l
  induction l with
  | nil => simp [bsInsert]
  | cons y t ih =>
      simp only [bsInsert]
      split
      · simp [List.mem_cons]
      · split
        · rename_i h1 h2
          subst h2
          simp only [List.mem_cons]
          tauto
        · rename_i h1 h2
          simp only [List.mem_cons, ih]
          tauto

theorem mem_foldl_ins {ρ α : Type} (ins : List α → α → List α) (exp : ρ → α)
    (hmem : ∀ s y x, x ∈ ins s y ↔ x = y ∨ x ∈ s) :
    ∀ (l : List ρ) (s : List α) (x : α),
      x ∈ l.foldl (fun a e => ins a (exp e)) s ↔ x ∈ s ∨ x ∈ l.map exp := by
  intro l
  induction l with
  | nil => intro s x; simp
  | cons e rest ih =>
      intro s x
      simp only [List.foldl_cons, ih, hmem, List.map_cons, List.mem_cons]
      tauto

/-- C3: an element is a member of the set built by `hashsetc!` or `btreesetc!`
iff at least one selected binding of the nested loop/filter traversal has a
body expression producing that element. -/
theorem setc_mem_iff {ρ α : Type} [LinearOrder α] [DecidableEq α] (exp : ρ → α)
    (c : Clauses ρ) (env : ρ) (x : α) :
    (x ∈ hashsetc exp c env ↔ ∃ e ∈ refSelected c env, exp e = x) ∧
      (x ∈ btreesetc exp c env ↔ ∃ e ∈ refSelected c env, exp e = x) := by
  constructor
  · rw [hashsetc_eq_foldl, mem_foldl_ins _ _ (fun s y z => mem_hsInsert s y z)]
    simp [List.mem_map, eq_comm]
  · rw [btreesetc_eq_foldl, mem_foldl_ins _ _ (fun s y z => mem_bsInsert y z s)]
    simp [List.mem_map, eq_comm]

theorem hashmapcAux_eq_compAux {ρ κ ν : Type} [DecidableEq κ] (key : ρ → κ) (val : ρ → ν)
    (c : Clauses ρ) :
    ∀ env acc, hashmapcAux key val c env acc =
      compAux (fun a e => hmInsert a (key e) (val e)) c env acc := by
  induction c with
  | forIf iter cond => intro env acc; rfl
  | forOnly iter => intro env acc; rfl
  | forIfSeq iter cond tail ih =>
      intro env acc
      simp only [hashmapcAux, compAux]
      congr 1
      funext a e
      rw [ih]
  | forSeq iter tail ih =>
      intro env acc
      simp only [hashmapcAux, compAux]
      congr 1
      funext a e
      rw [ih]

theorem hashmapc_eq_foldl {ρ κ ν : Type} [DecidableEq κ] (key : ρ → κ) (val : ρ → ν)
    (c : Clauses ρ) (env : ρ) :
    hashmapc key val c env =
      (refSelected c env).foldl (fun a e => hmInsert a (key e) (val e)) [] := by
  rw [hashmapc, hashmapcAux_eq_compAux, compAux_eq_foldl_refSelected]

theorem btreemapcAux_eq_compAux {ρ κ ν : Type} [LinearOrder κ] (key : ρ → κ) (val : ρ → ν)
    (c : Clauses ρ) :
    ∀ env acc, btreemapcAux key val c env acc =
      compAux (fun a e => bmInsert a (key e) (val e)) c env acc := by
  induction c with
  | forIf iter cond => intro env acc; rfl
  | forOnly iter => intro env acc; rfl
  | forIfSeq iter cond tail ih =>
      intro env acc
      simp only [btreemapcAux, compAux]
      congr 1
      funext a e
      rw [ih]
  | forSeq iter tail ih =>
      intro env acc
      simp only [btreemapcAux, compAux]
      congr 1
      funext a e
      rw [ih]

theorem btreemapc_eq_foldl {ρ κ ν : Type} [LinearOrder κ] (key : ρ → κ) (val : ρ → ν)
    (c : Clauses ρ) (env : ρ) :
    btreemapc key val c env =
      (refSelected c env).foldl (fun a e => bmInsert a (key e) (val e)) [] := by
  rw [btreemapc, btreemapcAux_eq_compAux, compAux_eq_foldl_refSelected]

theorem foldl_invariant {β σ : Type} (f : β → σ → β) (P : β → Prop)
    (h : ∀ b x, P b → P (f b x)) :
    ∀ (l : List σ) (b : β), P b → P (l.foldl f b) := by
  intro l
  induction l with
  | nil => intro b hb; exact hb
  | cons x xs ih => intro b hb; exact ih _ (h b x hb)

theorem bsInsert_sorted {α : Type} [LinearOrder α] (x : α) :
    ∀ l : List α, l.Sorted (· < ·) → (bsInsert l x).Sorted (· < ·) := by
  intro l
  induction l with
  | nil => intro _; simp [bsInsert]
  | cons y t ih =>
      intro hs
      rw [List.sorted_cons] at hs
      obtain ⟨hy, ht⟩ := hs
      simp only [bsInsert]
      split
      · rename_i h1
        rw [List.sorted_cons]
        refine ⟨?_, ?_⟩
        · intro b hb
          rcases List.mem_cons.mp hb with rfl | hbt
          · exact h1
          · exact lt_trans h1 (hy b hbt)
        · rw [List.sorted_cons]
          exact ⟨hy, ht⟩
      · split
        · rw [List.sorted_cons]
          exact ⟨hy, ht⟩
        · rename_i h1 h2
          rw [List.sorted_cons]
          refine ⟨?_, ih ht⟩
          intro b hb
          rcases (mem_bsInsert x b t).mp hb with rfl | hbt
          · exact lt_of_le_of_ne (not_lt.mp h1) (fun hh => h2 hh.symm)
          · exact hy b hbt

theorem hsInsert_nodup {α : Type} [DecidableEq α] (x : α) (s : List α)
    (h : s.Nodup) : (hsInsert s x).Nodup := by
  by_cases hx : x ∈ s
  · simpa [hsInsert, if_pos hx] using h
  · simp [hsInsert, if_neg hx, List.nodup_append, h, List.disjoint_singleton, hx]

theorem hmInsert_keys {κ ν : Type} [DecidableEq κ] (m : List (κ × ν)) (k : κ) (v : ν) :
    (hmInsert m k v).map Prod.fst =
      if k ∈ m.map Prod.fst then m.map Prod.fst else m.map Prod.fst ++ [k] := by
  by_cases h : k ∈ m.map Prod.fst
  · simp only [hmInsert, if_pos h]
    have hfst : (Prod.fst ∘ fun p : κ × ν => if p.1 = k then (p.1, v) else p) = Prod.fst := by
      funext p
      by_cases hp : p.1 = k <;> simp [hp]
    rw [List.map_map, hfst]
  · simp [hmInsert, if_neg h]

theorem hmInsert_keys_nodup {κ ν : Type} [DecidableEq κ] (m : List (κ × ν)) (k : κ) (v : ν)
    (h : (m.map Prod.fst).Nodup) : ((hmInsert m k v).map Prod.fst).Nodup := by
  rw [hmInsert_keys]
  split
  · exact h
  · rename_i hk
    simp [List.nodup_append, h, List.disjoint_singleton, hk]

theorem mem_keys_bmInsert {κ ν : Type} [LinearOrder κ] (k : κ) (v : ν) (b : κ) :
    ∀ m : List (κ × ν),
      b ∈ (bmInsert m k v).map Prod.fst ↔ b = k ∨ b ∈ m.map Prod.fst := by
  intro m
  induction m with
  | nil => simp [bmInsert]
  | cons p t ih =>
      rcases p with ⟨pk, pv⟩
      simp only [bmInsert]
      split
      · simp only [List.map_cons, List.mem_cons]
      · split
        · rename_i h1 h2
          subst h2
          simp only [List.map_cons, List.mem_cons]
          tauto
        · rename_i h1 h2
          simp only [List.map_cons, List.mem_cons, ih]
          tauto

theorem bmInsert_keys_sorted {κ ν : Type} [LinearOrder κ] (k : κ) (v : ν) :
    ∀ m : List (κ × ν), (m.map Prod.fst).Sorted (· < ·) →
      ((bmInsert m k v).map Prod.fst).Sorted (· < ·) := by
  intro m
  induction m with
  | nil => intro _; simp [bmInsert]
  | cons p t ih =>
      rcases p with ⟨pk, pv⟩
      intro hs
      simp only [List.map_cons, List.sorted_cons] at hs
      obtain ⟨hy, ht⟩ := hs
      simp only [bmInsert]
      split
      · rename_i h1
        simp only [List.map_cons, List.sorted_cons]
        refine ⟨?_, hy, ht⟩
        intro b hb
        rcases List.mem_cons.mp hb with rfl | hbt
        · exact h1
        · exact lt_trans h1 (hy b hbt)
      · split
        · rename_i h1 h2
          subst h2
          simp only [List.map_cons, List.sorted_cons]
          exact ⟨hy, ht⟩
        · rename_i h1 h2
          simp only [List.map_cons, List.sorted_cons]
          refine ⟨?_, ih ht⟩
          intro b hb
          rcases (mem_keys_bmInsert k v b t).mp hb with rfl | hbt
          · exact lt_of_le_of_ne (not_lt.mp h1) (fun hh => h2 hh.symm)
          · exact hy b hbt

/-- C9: `btreesetc!` results iterate in strictly ascending element order and
`btreemapc!` results in strictly ascending key order, regardless of the
traversal order of insertion; and no set result contains a duplicate element,
nor any map result a duplicate key. -/
theorem btree_sorted_and_no_duplicates {ρ α κ ν : Type} [LinearOrder α] [DecidableEq α]
    [LinearOrder κ] [DecidableEq κ] (exp : ρ → α) (key : ρ → κ) (val : ρ → ν)
    (c : Clauses ρ) (env : ρ) :
    (btreesetc exp c env).Sorted (· < ·) ∧
      ((btreemapc key val c env).map Prod.fst).Sorted (· < ·) ∧
      (btreesetc exp c env).Nodup ∧
      ((btreemapc key val c env).map Prod.fst).Nodup ∧
      (hashsetc exp c env).Nodup ∧
      ((hashmapc key val c env).map Prod.fst).Nodup := by
  have hbs : (btreesetc exp c env).Sorted (· < ·) := by
    rw [btreesetc_eq_foldl]
    exact foldl_invariant _ _ (fun b e hb => bsInsert_sorted (exp e) b hb) _ _ (by simp)
  have hbm : ((btreemapc key val c env).map Prod.fst).Sorted (· < ·) := by
    rw [btreemapc_eq_foldl]
    apply foldl_invariant _ (fun m => (m.map Prod.fst).Sorted (· < ·))
      (fun b e hb => bmInsert_keys_sorted (key e) (val e) b hb)
    simp
  refine ⟨hbs, hbm, hbs.nodup, hbm.nodup, ?_, ?_⟩
  · rw [hashsetc_eq_foldl]
    exact foldl_invariant _ _ (fun b e hb => hsInsert_nodup (exp e) b hb) _ _ (by simp)
  · rw [hashmapc_eq_foldl]
    apply foldl_invariant _ (fun m => (m.map Prod.fst).Nodup)
      (fun b e hb => hmInsert_keys_nodup b (key e) (val e) hb)
    simp

theorem mapGet_append {κ ν : Type} [DecidableEq κ] (k : κ) :
    ∀ l₁ l₂ : List (κ × ν), mapGet (l₁ ++ l₂) k = (mapGet l₁ k).or (mapGet l₂ k) := by
  intro l₁ l₂
  induction l₁ with
  | nil => simp [mapGet, Option.none_or]
  | cons p t ih =>
      by_cases h : p.1 = k
      · simp [mapGet, h]
      · simp [mapGet, h, ih]

theorem mapGet_eq_none {κ ν : Type} [DecidableEq κ] (k : κ) :
    ∀ m : List (κ × ν), k ∉ m.map Prod.fst → mapGet m k = none := by
  intro m
  induction m with
  | nil => intro _; rfl
  | cons p t ih =>
      intro h
      simp only [List.map_cons, List.mem_cons] at h
      push_neg at h
      obtain ⟨h1, h2⟩ := h
      rw [mapGet, if_neg (Ne.symm h1)]
      exact ih h2


theorem mapGet_overwrite {κ ν : Type} [DecidableEq κ] (k : κ) (v : ν) (k' : κ) :
    ∀ m : List (κ × ν),
      mapGet (m.map (fun p => if p.1 = k then (p.1, v) else p)) k' =
        if k' = k then (if k ∈ m.map Prod.fst then some v else none)
        else mapGet m k' := by
  intro m
  induction m with
  | nil => by_cases h : k' = k <;> simp [mapGet, h]
  | cons p t ih =>
      simp only [List.map_cons]
      by_cases hp : p.1 = k
      · rw [if_pos hp]
        by_cases hk : k' = k
        · subst hk
          have hm : k' ∈ p.1 :: t.map Prod.fst := by
            rw [hp]
            exact List.mem_cons_self _ _
          rw [mapGet, if_pos hp, if_pos rfl, if_pos hm]
        · have hpk : ¬ p.1 = k' := fun hh => hk (hh.symm.trans hp)
          rw [mapGet, if_neg hpk, ih, if_neg hk, if_neg hk, mapGet, if_neg hpk]
      · rw [if_neg hp]
        by_cases hpk : p.1 = k'
        · have hk : ¬ k' = k := fun hh => hp (hpk.trans hh)
          rw [mapGet, if_pos hpk, if_neg hk, mapGet, if_pos hpk]
        · rw [mapGet, if_neg hpk, ih]
          by_cases hk : k' = k
          · rw [if_pos hk, if_pos hk]
            by_cases hm : k ∈ t.map Prod.fst
            · rw [if_pos hm, if_pos (List.mem_cons_of_mem _ hm)]
            · rw [if_neg hm,
                if_neg (fun hh => (List.mem_cons.mp hh).elim (fun he => hp he.symm) hm)]
          · rw [if_neg hk, if_neg hk, mapGet, if_neg hpk]

theorem mapGet_hmInsert {κ ν : Type} [DecidableEq κ] (m : List (κ × ν)) (k : κ) (v : ν)
    (k' : κ) : mapGet (hmInsert m k v) k' = if k' = k then some v else mapGet m k' := by
  by_cases h : k ∈ m.map Prod.fst
  · rw [hmInsert, if_pos h, mapGet_overwrite]
    by_cases hk : k' = k <;> simp [hk, h]
  · rw [hmInsert, if_neg h, mapGet_append]
    by_cases hk : k' = k
    · subst hk
      rw [mapGet_eq_none k' m h]
      simp [mapGet, Option.none_or]
    · have hkk : ¬ k = k' := fun hh => hk hh.symm
      have h1 : mapGet [(k, v)] k' = none := by
        rw [mapGet, if_neg hkk]
        rfl
      rw [h1, Option.or_none, if_neg hk]

theorem mapGet_bmInsert {κ ν : Type} [LinearOrder κ] [DecidableEq κ] (k : κ) (v : ν)
    (k' : κ) :
    ∀ m : List (κ × ν),
      mapGet (bmInsert m k v) k' = if k' = k then some v else mapGet m k' := by
  intro m
  induction m with
  | nil =>
      by_cases h : k' = k
      · subst h
        simp [bmInsert, mapGet]
      · have h2 : ¬ k = k' := fun hh => h hh.symm
        simp [bmInsert, mapGet, h, h2]
  | cons p t ih =>
      simp only [bmInsert]
      split
      · rename_i h1
        by_cases hk : k' = k
        · subst hk
          simp [mapGet]
        · have h2 : ¬ k = k' := fun hh => hk hh.symm
          simp [mapGet, hk, h2]
      · split
        · rename_i h1 h2
          by_cases hk : k' = k
          · subst hk
            simp [mapGet]
          · have h3 : ¬ k = k' := fun hh => hk hh.symm
            have h4 : ¬ p.1 = k' := fun hh => hk (h2.trans hh).symm
            simp [mapGet, hk, h3, h4]
        · rename_i h1 h2
          by_cases hpk : p.1 = k'
          · have hk : ¬ k' = k := fun hh => h2 (hpk.trans hh).symm
            simp [mapGet, hpk, hk]
          · simp [mapGet, hpk, ih]

theorem lookupLast_cons {κ ν : Type} [DecidableEq κ] (p : κ × ν) (rest : List (κ × ν))
    (k : κ) :
    lookupLast (p :: rest) k =
      (lookupLast rest k).or (if p.1 = k then some p.2 else none) := by
  rw [lookupLast, lookupLast, List.reverse_cons, mapGet_append]
  rfl

theorem mapGet_foldl_insert {ρ κ ν : Type} [DecidableEq κ]
    (ins : List (κ × ν) → κ → ν → List (κ × ν)) (key : ρ → κ) (val : ρ → ν)
    (hins : ∀ m k v k', mapGet (ins m k v) k' = if k' = k then some v else mapGet m k') :
    ∀ (l : List ρ) (m : List (κ × ν)) (k : κ),
      mapGet (l.foldl (fun a e => ins a (key e) (val e)) m) k =
        (lookupLast (l.map fun e => (key e, val e)) k).or (mapGet m k) := by
  intro l
  induction l with
  | nil =>
      intro m k
      rw [List.foldl_nil, List.map_nil]
      rw [show lookupLast ([] : List (κ × ν)) k = none from rfl, Option.none_or]
  | cons e rest ih =>
      intro m k
      rw [List.foldl_cons, ih, List.map_cons, lookupLast_cons, Option.or_assoc]
      congr 1
      rw [hins]
      by_cases h : k = key e
      · rw [if_pos h, if_pos h.symm]
        rfl
      · rw [if_neg h, if_neg (fun hh => h hh.symm), Option.none_or]

/-- C4: for `hashmapc!` and `btreemapc!`, looking up any key in the result
equals last-write-wins over the traversal-ordered sequence of selected
key-value pairs: a key produced by several selected bindings is bound to the
value of the latest such binding in traversal order. -/
theorem mapc_last_write_wins {ρ κ ν : Type} [LinearOrder κ] [DecidableEq κ]
    (key : ρ → κ) (val : ρ → ν) (c : Clauses ρ) (env : ρ) (k : κ) :
    mapGet (hashmapc key val c env) k =
        lookupLast ((refSelected c env).map fun e => (key e, val e)) k ∧
      mapGet (btreemapc key val c env) k =
        lookupLast ((refSelected c env).map fun e => (key e, val e)) k := by
  constructor
  · rw [hashmapc_eq_foldl,
      mapGet_foldl_insert hmInsert key val (fun m kk vv k' => mapGet_hmInsert m kk vv k'),
      show mapGet ([] : List (κ × ν)) k = none from rfl, Option.or_none]
  · rw [btreemapc_eq_foldl,
      mapGet_foldl_insert bmInsert key val (fun m kk vv k' => mapGet_bmInsert kk vv k' m),
      show mapGet ([] : List (κ × ν)) k = none from rfl, Option.or_none]

/-- C5 counterexample: `btreesetc!` does not iterate in traversal order.  For
the clause `for x in [2, 1]` with the identity body, the traversal order is
`[2, 1]` but the built `BTreeSet` iterates as `[1, 2]`. -/
theorem btreesetc_not_traversal_order :
    ¬ (btreesetc (fun x => x) (Clauses.forOnly (fun _ => [2, 1])) (0 : Nat) =
        (refSelected (Clauses.forOnly (fun _ => [2, 1])) (0 : Nat)).map (fun x => x)) := by
  decide

/-- C5 (amended): `vecc!` and `iterc!` yield their elements in the traversal
order of the nested loop/filter clauses; the ordered containers do not —
`btreesetc!` iterates in strictly ascending element order and `btreemapc!` in
strictly ascending key order, regardless of traversal order. -/
theorem comprehension_iteration_order {ρ α κ ν : Type} [LinearOrder α] [DecidableEq α]
    [LinearOrder κ] [DecidableEq κ] (exp : ρ → α) (key : ρ → κ) (val : ρ → ν)
    (c : Clauses ρ) (env : ρ) :
    vecc exp c env = (refSelected c env).map exp ∧
      itercYields exp c env = (refSelected c env).map exp ∧
      (btreesetc exp c env).Sorted (· < ·) ∧
      ((btreemapc key val c env).map Prod.fst).Sorted (· < ·) := by
  refine ⟨vecc_eq_map exp c env, itercYields_eq_refSelected_map exp c env, ?_, ?_⟩
  · rw [btreesetc_eq_foldl]
    exact foldl_invariant _ _ (fun b e hb => bsInsert_sorted (exp e) b hb) _ _ (by simp)
  · rw [btreemapc_eq_foldl]
    apply foldl_invariant _ (fun m => (m.map Prod.fst).Sorted (· < ·))
      (fun b e hb => bmInsert_keys_sorted (key e) (val e) b hb)
    simp

theorem clausesEquiv_eq {ρ : Type} {c₁ c₂ : Clauses ρ} (h : ClausesEquiv c₁ c₂) :
    c₁ = c₂ := by
  induction h with
  | forIf hi hc => rw [funext hi, funext hc]
  | forOnly hi => rw [funext hi]
  | forIfSeq hi hc ht iht => rw [funext hi, funext hc, iht]
  | forSeq hi ht iht => rw [funext hi, iht]

/-- C10: every comprehension macro is deterministic.  Two evaluations over
equal input sequences (pointwise-equal iterables and guards) with
pointwise-equal pure body expressions produce equal outputs: equal vectors
for `vecc!`, equal yield sequences for `iterc!`, and equal containers for the
set and map macros. -/
theorem comprehension_deterministic {ρ α κ ν : Type} [LinearOrder α] [DecidableEq α]
    [LinearOrder κ] [DecidableEq κ] (exp₁ exp₂ : ρ → α) (key₁ key₂ : ρ → κ)
    (val₁ val₂ : ρ → ν) (c₁ c₂ : Clauses ρ) (env : ρ)
    (hc : ClausesEquiv c₁ c₂) (hexp : ∀ e, exp₁ e = exp₂ e)
    (hkey : ∀ e, key₁ e = key₂ e) (hval : ∀ e, val₁ e = val₂ e) :
    vecc exp₁ c₁ env = vecc exp₂ c₂ env ∧
      itercYields exp₁ c₁ env = itercYields exp₂ c₂ env ∧
      hashsetc exp₁ c₁ env = hashsetc exp₂ c₂ env ∧
      btreesetc exp₁ c₁ env = btreesetc exp₂ c₂ env ∧
      hashmapc key₁ val₁ c₁ env = hashmapc key₂ val₂ c₂ env ∧
      btreemapc key₁ val₁ c₁ env = btreemapc key₂ val₂ c₂ env := by
  obtain rfl : c₁ = c₂ := clausesEquiv_eq hc
  obtain rfl : exp₁ = exp₂ := funext hexp
  obtain rfl : key₁ = key₂ := funext hkey
  obtain rfl : val₁ = val₂ := funext hval
  exact ⟨rfl, rfl, rfl, rfl, rfl, rfl⟩

/-- Witness for C10 at a concrete comprehension with syntactically different
but pointwise-equal bodies and keys. -/
theorem comprehension_deterministic_witness :
    vecc (fun x => x + 1) (Clauses.forOnly (fun _ => [1, 2])) 0 =
        vecc (fun x => 1 + x) (Clauses.forOnly (fun _ => [1, 2])) 0 ∧
      itercYields (fun x => x + 1) (Clauses.forOnly (fun _ => [1, 2])) 0 =
        itercYields (fun x => 1 + x) (Clauses.forOnly (fun _ => [1, 2])) 0 ∧
      hashsetc (fun x => x + 1) (Clauses.forOnly (fun _ => [1, 2])) 0 =
        hashsetc (fun x => 1 + x) (Clauses.forOnly (fun _ => [1, 2])) 0 ∧
      btreesetc (fun x => x + 1) (Clauses.forOnly (fun _ => [1, 2])) 0 =
        btreesetc (fun x => 1 + x) (Clauses.forOnly (fun _ => [1, 2])) 0 ∧
      hashmapc (fun x => x * 2) (fun _ => 0) (Clauses.forOnly (fun _ => [1, 2])) 0 =
        hashmapc (fun x => 2 * x) (fun _ => 0) (Clauses.forOnly (fun _ => [1, 2])) 0 ∧
      btreemapc (fun x => x * 2) (fun _ => 0) (Clauses.forOnly (fun _ => [1, 2])) 0 =
        btreemapc (fun x => 2 * x) (fun _ => 0) (Clauses.forOnly (fun _ => [1, 2])) 0 :=
  comprehension_deterministic (fun x => x + 1) (fun x => 1 + x) (fun x => x * 2)
    (fun x => 2 * x) (fun _ => 0) (fun _ => 0) (Clauses.forOnly (fun _ => [1, 2]))
    (Clauses.forOnly (fun _ => [1, 2])) 0
    (ClausesEquiv.forOnly (fun _ => rfl)) (fun e => Nat.add_comm e 1)
    (fun e => Nat.mul_comm e 2) (fun _ => rfl)

theorem tailYields_eq {ρ α : Type} (s : Nat → ρ) (exp : ρ → α) (c : Clauses ρ) :
    ∀ m k, tailYields s exp c k m =
      ((List.range m).map (fun i => s (k + i))).flatMap (itercYields exp c) := by
  intro m
  induction m with
  | zero => intro k; rfl
  | succ n ih =>
      intro k
      show itercYields exp c (s k) ++ tailYields s exp c (k + 1) n = _
      rw [ih, List.range_succ_eq_map, List.map_cons, List.flatMap_cons, List.map_map]
      have harg : (fun i => s (k + 1 + i)) = ((fun i => s (k + i)) ∘ Nat.succ) := by
        funext i
        show s (k + 1 + i) = s (k + (i + 1))
        congr 1
        omega
      rw [harg, Nat.add_zero]

theorem tailYields_add {ρ α : Type} (s : Nat → ρ) (exp : ρ → α) (c : Clauses ρ) :
    ∀ m₁ m₂ k, tailYields s exp c k (m₁ + m₂) =
      tailYields s exp c k m₁ ++ tailYields s exp c (k + m₁) m₂ := by
  intro m₁
  induction m₁ with
  | zero => intro m₂ k; simp [tailYields]
  | succ n ih =>
      intro m₂ k
      rw [show n + 1 + m₂ = (n + m₂) + 1 from by omega]
      show itercYields exp c (s k) ++ tailYields s exp c (k + 1) (n + m₂) =
        tailYields s exp c k (n + 1) ++ tailYields s exp c (k + (n + 1)) m₂
      rw [ih,
        show tailYields s exp c k (n + 1) =
          itercYields exp c (s k) ++ tailYields s exp c (k + 1) n from rfl,
        List.append_assoc, show k + 1 + n = k + (n + 1) from by omega]

theorem genResume_none {ρ α : Type} (s : Nat → ρ) (exp : ρ → α) (c : Clauses ρ) :
    ∀ fuel k, genResume s exp c fuel k = none → tailYields s exp c k fuel = [] := by
  intro fuel
  induction fuel with
  | zero => intro k _; rfl
  | succ n ih =>
      intro k h
      cases hy : itercYields exp c (s k) with
      | cons y rest =>
          simp only [genResume, hy] at h
          exact absurd h (Option.some_ne_none _)
      | nil =>
          simp only [genResume, hy] at h
          show itercYields exp c (s k) ++ tailYields s exp c (k + 1) n = []
          rw [hy, List.nil_append]
          exact ih (k + 1) h

theorem genResume_some {ρ α : Type} (s : Nat → ρ) (exp : ρ → α) (c : Clauses ρ) :
    ∀ fuel k (y : α) (rest : List α) (k' : Nat),
      genResume s exp c fuel k = some (y, rest, k') →
        k ≤ k' ∧ k' ≤ k + fuel ∧
          tailYields s exp c k fuel =
            (y :: rest) ++ tailYields s exp c k' (k + fuel - k') := by
  intro fuel
  induction fuel with
  | zero =>
      intro k y rest k' h
      exact absurd h (by simp [genResume])
  | succ n ih =>
      intro k y rest k' h
      cases hy : itercYields exp c (s k) with
      | cons y0 rest0 =>
          simp only [genResume, hy, Option.some.injEq, Prod.mk.injEq] at h
          obtain ⟨h1, h2, h3⟩ := h
          refine ⟨by omega, by omega, ?_⟩
          rw [← h3, show k + (n + 1) - (k + 1) = n from by omega]
          show itercYields exp c (s k) ++ tailYields s exp c (k + 1) n =
            (y :: rest) ++ tailYields s exp c (k + 1) n
          rw [hy, h1, h2]
      | nil =>
          simp only [genResume, hy] at h
          obtain ⟨h1, h2, h3⟩ := ih (k + 1) y rest k' h
          refine ⟨Nat.le_trans (Nat.le_succ k) h1, by omega, ?_⟩
          show itercYields exp c (s k) ++ tailYields s exp c (k + 1) n = _
          rw [hy, List.nil_append, h3, show k + 1 + n - k' = k + (n + 1) - k' from by omega]

theorem genRun_spec {ρ α : Type} (s : Nat → ρ) (exp : ρ → α) (c : Clauses ρ)
    (fuel : Nat) :
    ∀ (n : Nat) (buf : List α) (k m : Nat), m ≤ fuel →
      n ≤ (buf ++ tailYields s exp c k m).length →
      genRun s exp c fuel n (buf, k) =
        some ((buf ++ tailYields s exp c k m).take n) := by
  intro n
  induction n with
  | zero => intro buf k m hm hn; rfl
  | succ n ih =>
      intro buf k m hm hn
      cases buf with
      | cons y buf' =>
          have hnext : genNext s exp c fuel (y :: buf', k) = some (y, buf', k) := rfl
          simp only [genRun, hnext]
          have hn' : n ≤ (buf' ++ tailYields s exp c k m).length := by
            rw [List.cons_append, List.length_cons] at hn
            omega
          rw [ih buf' k m hm hn']
          rfl
      | nil =>
          rw [List.nil_append] at hn
          have hne : tailYields s exp c k m ≠ [] := by
            intro hemp
            rw [hemp] at hn
            simp at hn
          have hsplit : tailYields s exp c k fuel =
              tailYields s exp c k m ++ tailYields s exp c (k + m) (fuel - m) := by
            rw [← tailYields_add, show m + (fuel - m) = fuel from by omega]
          cases hres : genResume s exp c fuel k with
          | none =>
              exfalso
              have hall := genResume_none s exp c fuel k hres
              rw [hsplit] at hall
              exact hne (List.append_eq_nil.mp hall).1
          | some t =>
              obtain ⟨y, rest, k'⟩ := t
              obtain ⟨hk1, hk2, htail⟩ := genResume_some s exp c fuel k y rest k' hres
              have hnext : genNext s exp c fuel ([], k) = some (y, rest, k') := hres
              simp only [genRun, hnext]
              have hm' : k + fuel - k' ≤ fuel := by omega
              have hlen : n + 1 ≤ (tailYields s exp c k fuel).length := by
                rw [hsplit, List.length_append]
                omega
              have hlen' : n ≤ (rest ++ tailYields s exp c k' (k + fuel - k')).length := by
                rw [htail, List.cons_append, List.length_cons] at hlen
                omega
              rw [ih rest k' (k + fuel - k') hm' hlen']
              have htake : (tailYields s exp c k fuel).take (n + 1) =
                  (tailYields s exp c k m).take (n + 1) := by
                rw [hsplit, List.take_append_of_le_length hn]
              rw [List.nil_append, ← htake, htail, List.cons_append, List.take_succ_cons]
              rfl

theorem infSelected_eq {ρ α : Type} (s : Nat → ρ) (exp : ρ → α) (c : Clauses ρ)
    (bound : Nat) : infSelected s exp c bound = tailYields s exp c 0 bound := by
  rw [infSelected, tailYields_eq]
  congr 1
  congr 1
  funext i
  rw [Nat.zero_add]

/-- C6: laziness of `iterc!` over an unbounded source.  If the nested
loop/filter traversal selects at least `n` elements among the first `bound`
stream elements, then the first `n` successive `next()` calls all terminate
while consuming at most `bound` stream elements per call, and return exactly
the first `n` traversal-ordered selected elements — no full container is
populated. -/
theorem iterc_lazy_over_unbounded_source {ρ α : Type} (s : Nat → ρ) (exp : ρ → α)
    (c : Clauses ρ) (bound n : Nat)
    (h : n ≤ (infSelected s exp c bound).length) :
    genRun s exp c bound n ([], 0) = some ((infSelected s exp c bound).take n) := by
  rw [infSelected_eq] at h
  have hrun := genRun_spec s exp c bound n [] 0 bound (le_refl bound)
    (by simpa using h)
  rw [List.nil_append] at hrun
  rw [infSelected_eq]
  exact hrun

/-- Witness for C6: the odd elements of the stream `0, 1, 2, …`; two `next()`
calls scanning at most six stream elements return the first two selected
elements `1` and `3`. -/
theorem iterc_lazy_witness :
    2 ≤ (infSelected (fun i => i) (fun x => x)
        (Clauses.forIf (fun e => [e]) (fun e => e % 2 == 1)) 6).length ∧
      genRun (fun i => i) (fun x => x)
          (Clauses.forIf (fun e => [e]) (fun e => e % 2 == 1)) 6 2 ([], 0) =
        some ((infSelected (fun i => i) (fun x => x)
            (Clauses.forIf (fun e => [e]) (fun e => e % 2 == 1)) 6).take 2) :=
  ⟨by decide,
    iterc_lazy_over_unbounded_source (fun i => i) (fun x => x)
      (Clauses.forIf (fun e => [e]) (fun e => e % 2 == 1)) 6 2 (by decide)⟩
